import Mathlib

/-!
Verification development for the PCB component placement engine
(`pcb_placement.py`): a Max-Rects style rectangle packer with three
scoring heuristics (BSSF, BLSF, BAF), a constraint validator (bounds,
overlap, edge, proximity), free-rectangle split/prune bookkeeping, and a
paired opposite-edge placement routine.

The Python source is embedded shallowly: machine integers become `Int`,
the floating-point proximity bound becomes `Rat`, object mutation becomes
explicit state passing on a `PCBPlacer` record, and boolean-returning
methods become `Bool`-valued functions.
-/

/-- A PCB component record, mirroring the Python dataclass `Component`.
The float field `max_proximity_distance` is modelled as a rational. -/
structure Component where
  name : String
  width : Int
  height : Int
  x : Int := 0
  y : Int := 0
  must_be_on_edge : Bool := false
  can_place_anywhere : Bool := true
  proximity_target : Option String := none
  max_proximity_distance : Rat := 0
deriving DecidableEq, Repr

/-- A free rectangle of the Max-Rects pool, mirroring the Python dataclass
`Rectangle`. -/
structure Rectangle where
  x : Int
  y : Int
  width : Int
  height : Int
deriving DecidableEq, Repr

/-- The placer state, mirroring the mutable fields of the Python class
`PCBPlacer`: board dimensions, the list of placed components, and the
free-rectangle pool. -/
structure PCBPlacer where
  board_width : Int
  board_height : Int
  placed_components : List Component
  free_rectangles : List Rectangle
deriving DecidableEq, Repr

/-- The initial state of `PCBPlacer.__init__`: no placed components and a
single free rectangle covering the whole board. -/
def PCBPlacer.start (w h : Int) : PCBPlacer :=
  { board_width := w, board_height := h, placed_components := [],
    free_rectangles := [Rectangle.mk 0 0 w h] }

/-- The proximity check at the end of `PCBPlacer.is_position_valid`.
The source computes centers with Python floor division (`// 2`, here
`Int.fdiv`) and compares `sqrt(dsq) > max_proximity_distance`; since for
an integer `dsq ≥ 0` the float-free equivalence
`sqrt dsq ≤ m ↔ (0 ≤ m ∧ dsq ≤ m ^ 2)` holds, the check is encoded
without square roots. -/
def proximity_ok (p : PCBPlacer) (c : Component) (x y : Int) : Bool :=
  match c.proximity_target with
  | none => true
  | some nm =>
    match p.placed_components.find? (fun t => t.name == nm) with
    | none => true
    | some target =>
      let tcx := target.x + Int.fdiv target.width 2
      let tcy := target.y + Int.fdiv target.height 2
      let ccx := x + Int.fdiv c.width 2
      let ccy := y + Int.fdiv c.height 2
      let dsq : Int := (ccx - tcx) ^ 2 + (ccy - tcy) ^ 2
      decide (0 ≤ c.max_proximity_distance ∧
              (dsq : Rat) ≤ c.max_proximity_distance ^ 2)

/-- Embedding of `PCBPlacer.is_position_valid`: board bounds, overlap
against every placed component, the edge constraint, and the proximity
constraint, in source order. -/
def is_position_valid (p : PCBPlacer) (c : Component) (x y : Int) : Bool :=
  if x < 0 ∨ y < 0 ∨ x + c.width > p.board_width ∨ y + c.height > p.board_height then
    false
  else if p.placed_components.any (fun placed =>
      !(decide (x ≥ placed.x + placed.width) || decide (x + c.width ≤ placed.x) ||
        decide (y ≥ placed.y + placed.height) || decide (y + c.height ≤ placed.y))) then
    false
  else if c.must_be_on_edge &&
      !(decide (x = 0) || decide (y = 0) || decide (x + c.width = p.board_width) ||
        decide (y + c.height = p.board_height)) then
    false
  else proximity_ok p c x y

/-- One step of the scanning loop shared by the three heuristic methods
`find_best_position_bssf` / `_blsf` / `_baf`: a pool rectangle large
enough for the component is tried at its top-left corner, and the running
best is replaced exactly when the (primary, secondary) score pair improves
lexicographically. `key` computes that pair from the two leftovers. -/
def scan_step (p : PCBPlacer) (c : Component) (key : Int → Int → Int × Int)
    (acc : Option (Int × Int × Int × Int)) (rect : Rectangle) :
    Option (Int × Int × Int × Int) :=
  if rect.width ≥ c.width ∧ rect.height ≥ c.height then
    let lh := rect.width - c.width
    let lv := rect.height - c.height
    let pr := (key lh lv).1
    let sec := (key lh lv).2
    if is_position_valid p c rect.x rect.y then
      match acc with
      | none => some (rect.x, rect.y, pr, sec)
      | some (bx, b2, bp, bs) =>
        if pr < bp ∨ (pr = bp ∧ sec < bs) then some (rect.x, rect.y, pr, sec)
        else some (bx, b2, bp, bs)
    else acc
  else acc

/-- The scanning loop over the pool in insertion order; returns the best
position together with the primary score, or `none` when nothing fits and
validates (the `-1` sentinel of the source). -/
def find_best_position (p : PCBPlacer) (c : Component) (key : Int → Int → Int × Int) :
    Option (Int × Int × Int) :=
  (p.free_rectangles.foldl (scan_step p c key) none).map (fun r => (r.1, r.2.1, r.2.2.1))

/-- Embedding of `find_best_position_bssf`: primary score is the shorter
leftover side, tie-broken by the longer one. -/
def find_best_position_bssf (p : PCBPlacer) (c : Component) : Option (Int × Int × Int) :=
  find_best_position p c (fun lh lv => (min lh lv, max lh lv))

/-- Embedding of `find_best_position_blsf`: primary score is the longer
leftover side, tie-broken by the shorter one. -/
def find_best_position_blsf (p : PCBPlacer) (c : Component) : Option (Int × Int × Int) :=
  find_best_position p c (fun lh lv => (max lh lv, min lh lv))

/-- Embedding of `find_best_position_baf`: primary score is the leftover
area, tie-broken by the shorter leftover side. -/
def find_best_position_baf (p : PCBPlacer) (c : Component) : Option (Int × Int × Int) :=
  find_best_position p c (fun lh lv => (lh * lv, min lh lv))

/-- Embedding of `PCBPlacer.split_free_rectangle`: up to four slices, in
the fixed order left, right, top, bottom. -/
def split_free_rectangle (rect : Rectangle) (c : Component) (x y : Int) : List Rectangle :=
  (if x > rect.x then [Rectangle.mk rect.x rect.y (x - rect.x) rect.height] else []) ++
  (if x + c.width < rect.x + rect.width then
     [Rectangle.mk (x + c.width) rect.y (rect.x + rect.width - x - c.width) rect.height]
   else []) ++
  (if y > rect.y then [Rectangle.mk rect.x rect.y rect.width (y - rect.y)] else []) ++
  (if y + c.height < rect.y + rect.height then
     [Rectangle.mk rect.x (y + c.height) rect.width (rect.y + rect.height - y - c.height)]
   else [])

/-- The containment test of `remove_redundant_rectangles`: `r1` lies
inside `r2` (all four bounds, non-strict). -/
def contained_in (r1 r2 : Rectangle) : Bool :=
  decide (r2.x ≤ r1.x) && decide (r2.y ≤ r1.y) &&
  decide (r1.x + r1.width ≤ r2.x + r2.width) &&
  decide (r1.y + r1.height ≤ r2.y + r2.height)

/-- Embedding of `PCBPlacer.remove_redundant_rectangles`: an element is
dropped when some element at a different index of the input list contains
it. The index-based comparison of the source (`if i != j`) is kept via
`List.enum`. -/
def remove_redundant_rectangles (rects : List Rectangle) : List Rectangle :=
  (rects.enum.filter (fun ir =>
      !(rects.enum.any (fun jr => ir.1 != jr.1 && contained_in ir.2 jr.2)))).map Prod.snd

/-- The intersection test used before splitting a pool rectangle in
`place_component` and `force_mikrobus_placement`. -/
def intersects (x y w h : Int) (rect : Rectangle) : Bool :=
  decide (x < rect.x + rect.width) && decide (x + w > rect.x) &&
  decide (y < rect.y + rect.height) && decide (y + h > rect.y)

/-- The common commit step of `place_component` and the partner branch of
`force_mikrobus_placement`: record the position on the component, append
it to the placed list, split every intersecting pool rectangle, and prune
the result. -/
def commit_placement (p : PCBPlacer) (c : Component) (x y : Int) : Component × PCBPlacer :=
  let c' := { c with x := x, y := y }
  let new_free := p.free_rectangles.flatMap (fun rect =>
    if intersects x y c'.width c'.height rect then split_free_rectangle rect c' x y
    else [rect])
  (c', { p with placed_components := p.placed_components ++ [c'],
                free_rectangles := remove_redundant_rectangles new_free })

/-- The cross-heuristic comparison loop of `place_component`: a later
result replaces the running best only when its raw score is strictly
smaller. -/
def choose_step (acc r : Option (Int × Int × Int)) : Option (Int × Int × Int) :=
  match r with
  | none => acc
  | some (x, y, score) =>
    match acc with
    | none => some (x, y, score)
    | some (bx, b2, bscore) =>
      if score < bscore then some (x, y, score) else some (bx, b2, bscore)

/-- Embedding of `PCBPlacer.place_component`: evaluate the three
heuristics in the fixed order BSSF, BLSF, BAF, keep the strictly smallest
raw score, and on success commit; on failure return the state and the
component unchanged. -/
def place_component (p : PCBPlacer) (c : Component) : Bool × Component × PCBPlacer :=
  let results := [find_best_position_bssf p c, find_best_position_blsf p c,
                  find_best_position_baf p c]
  match results.foldl choose_step none with
  | none => (false, c, p)
  | some (bx, b2, _) =>
    let cp := commit_placement p c bx b2
    (true, cp.1, cp.2)

/-- The hardcoded candidate positions of `force_mikrobus_placement`,
selected by the edge the anchor landed on, checked in the fixed priority
order left, right, top, bottom. The source builds the literal lists
`[(45, y) for y in range(46) if y % 5 == 0]` (and the three analogues)
independently of the board size and the partner size. -/
def mikrobus_targets (p : PCBPlacer) (mb1 : Component) : List (Int × Int) :=
  if mb1.x = 0 then
    ((List.range 46).filter (fun y => y % 5 == 0)).map (fun y => ((45 : Int), (y : Int)))
  else if mb1.x + mb1.width = p.board_width then
    ((List.range 46).filter (fun y => y % 5 == 0)).map (fun y => ((0 : Int), (y : Int)))
  else if mb1.y = 0 then
    ((List.range 46).filter (fun x => x % 5 == 0)).map (fun x => ((x : Int), (45 : Int)))
  else if mb1.y + mb1.height = p.board_height then
    ((List.range 46).filter (fun x => x % 5 == 0)).map (fun x => ((x : Int), (0 : Int)))
  else []

/-- The candidate scan of `force_mikrobus_placement`: the first position
passing `is_position_valid`, in list order. -/
def find_first_valid (p : PCBPlacer) (c : Component) : List (Int × Int) → Option (Int × Int)
  | [] => none
  | (x, y) :: rest =>
    if is_position_valid p c x y then some (x, y) else find_first_valid p c rest

/-- Embedding of `PCBPlacer.force_mikrobus_placement`: place the anchor
through `place_component`, then commit the partner at the first valid
hardcoded candidate; on failure after the anchor succeeded, the state
keeps the anchor placement (no rollback). -/
def force_mikrobus_placement (p : PCBPlacer) (mb1 mb2 : Component) :
    Bool × Component × Component × PCBPlacer :=
  match place_component p mb1 with
  | (false, _, _) => (false, mb1, mb2, p)
  | (true, mb1', p1) =>
    match find_first_valid p1 mb2 (mikrobus_targets p1 mb1') with
    | none => (false, mb1', mb2, p1)
    | some (x, y) =>
      let cp := commit_placement p1 mb2 x y
      (true, mb1', cp.1, cp.2)

/-- Spec-side step list for the paired placement, written from the words
of the specification (section 4.5, step 3): free coordinates from 0
stepping by 5, up to and not exceeding `bound`, the board extent minus
the partner extent on that axis. -/
def step_positions (bound : Int) : List Int :=
  ((List.range (bound.toNat + 1)).filter (fun k => k % 5 == 0)).map (fun k => (k : Int))

/-- Spec-side candidate list for the paired placement, written from the
words of the specification (section 4.5, steps 2 and 3): the fixed
coordinate sits on the edge opposite the anchor landing edge (determined
in the priority order left, right, top, bottom), the free coordinate
steps over `step_positions`. Used only for comparison against the
code-side `mikrobus_targets`. -/
def spec_pair_targets (p : PCBPlacer) (mb1 mb2 : Component) : List (Int × Int) :=
  if mb1.x = 0 then
    (step_positions (p.board_height - mb2.height)).map
      (fun y => (p.board_width - mb2.width, y))
  else if mb1.x + mb1.width = p.board_width then
    (step_positions (p.board_height - mb2.height)).map (fun y => ((0 : Int), y))
  else if mb1.y = 0 then
    (step_positions (p.board_width - mb2.width)).map
      (fun x => (x, p.board_height - mb2.height))
  else if mb1.y + mb1.height = p.board_height then
    (step_positions (p.board_width - mb2.width)).map (fun x => (x, (0 : Int)))
  else []

/-- Spec-side paired placement, identical to the code-side routine except
that the candidate list is `spec_pair_targets`. Used only for comparison
against `force_mikrobus_placement`. -/
def spec_place_pair (p : PCBPlacer) (mb1 mb2 : Component) :
    Bool × Component × Component × PCBPlacer :=
  match place_component p mb1 with
  | (false, _, _) => (false, mb1, mb2, p)
  | (true, mb1', p1) =>
    match find_first_valid p1 mb2 (spec_pair_targets p1 mb1' mb2) with
    | none => (false, mb1', mb2, p1)
    | some (x, y) =>
      let cp := commit_placement p1 mb2 x y
      (true, mb1', cp.1, cp.2)

/-! ## Geometric predicates and the state invariant -/

/-- The rectangle occupied by a placed component. -/
def Component.rect (c : Component) : Rectangle :=
  Rectangle.mk c.x c.y c.width c.height

/-- Membership of an integer point in the half-open region of a
rectangle. -/
def Rectangle.memPt (r : Rectangle) (q : Int × Int) : Prop :=
  r.x ≤ q.1 ∧ q.1 < r.x + r.width ∧ r.y ≤ q.2 ∧ q.2 < r.y + r.height

/-- Disjoint interiors of two placed components (edge-touching allowed),
in the arithmetic form used by the overlap check of the source. -/
def compDisjoint (a b : Component) : Prop :=
  a.x ≥ b.x + b.width ∨ a.x + a.width ≤ b.x ∨ a.y ≥ b.y + b.height ∨ a.y + a.height ≤ b.y

/-- A free rectangle does not meet the rectangle of a placed component. -/
def rcDisjoint (r : Rectangle) (c : Component) : Prop :=
  ¬(c.x < r.x + r.width ∧ c.x + c.width > r.x ∧
    c.y < r.y + r.height ∧ c.y + c.height > r.y)

/-- A placed component lies within the board. -/
def inBounds (p : PCBPlacer) (c : Component) : Prop :=
  0 ≤ c.x ∧ 0 ≤ c.y ∧ c.x + c.width ≤ p.board_width ∧ c.y + c.height ≤ p.board_height

/-- A rectangle with positive extents. -/
def goodRect (r : Rectangle) : Prop := 0 < r.width ∧ 0 < r.height

/-- Neither rectangle contains the other. -/
def noContain (a b : Rectangle) : Prop :=
  contained_in a b = false ∧ contained_in b a = false

/-- Area of a rectangle. -/
def Rectangle.area (r : Rectangle) : Int := r.width * r.height

/-- Every board point is covered by a placed component or by a free
rectangle of the pool. -/
def covers (p : PCBPlacer) : Prop :=
  ∀ q : Int × Int, 0 ≤ q.1 → q.1 < p.board_width → 0 ≤ q.2 → q.2 < p.board_height →
    (∃ c ∈ p.placed_components, (Component.rect c).memPt q) ∨
    (∃ r ∈ p.free_rectangles, r.memPt q)

/-- The engine invariant: placed components are in bounds and pairwise
disjoint; pool rectangles have positive extents, avoid every placed
component, form an antichain under containment, and together with the
placed components cover the board. -/
def PlacerInv (p : PCBPlacer) : Prop :=
  (∀ c ∈ p.placed_components, inBounds p c) ∧
  p.placed_components.Pairwise compDisjoint ∧
  (∀ r ∈ p.free_rectangles, goodRect r) ∧
  (∀ r ∈ p.free_rectangles, ∀ c ∈ p.placed_components, rcDisjoint r c) ∧
  p.free_rectangles.Pairwise noContain ∧
  covers p

/-- States reachable from a fresh board with positive extents through the
two placement entry points. -/
inductive Reachable : PCBPlacer → Prop
  | start (w h : Int) (hw : 0 < w) (hh : 0 < h) : Reachable (PCBPlacer.start w h)
  | place (p : PCBPlacer) (c : Component) (hp : Reachable p) :
      Reachable (place_component p c).2.2
  | pair (p : PCBPlacer) (a b : Component) (hp : Reachable p) :
      Reachable (force_mikrobus_placement p a b).2.2.2

/-- A pool rectangle that fits the component and whose top-left corner
passes the validator: exactly the candidates a heuristic may return. -/
def candRect (p : PCBPlacer) (c : Component) (r : Rectangle) : Prop :=
  r.width ≥ c.width ∧ r.height ≥ c.height ∧ is_position_valid p c r.x r.y = true

/-- The three heuristic results of `place_component`, in source order. -/
def heuristic_results (p : PCBPlacer) (c : Component) : List (Option (Int × Int × Int)) :=
  [find_best_position_bssf p c, find_best_position_blsf p c, find_best_position_baf p c]

instance (r : Rectangle) (q : Int × Int) : Decidable (r.memPt q) := by
  unfold Rectangle.memPt
  infer_instance

instance (p : PCBPlacer) (c : Component) (r : Rectangle) : Decidable (candRect p c r) := by
  unfold candRect
  infer_instance

/-! ## Concrete components and states used as witnesses -/

/-- The edge-constrained USB connector of the demo component list. -/
def usb_demo : Component :=
  { name := "USB_CONNECTOR", width := 5, height := 5, must_be_on_edge := true }

/-- The first MikroBus connector of the demo component list. -/
def mb1_demo : Component :=
  { name := "MIKROBUS_CONNECTOR_1", width := 5, height := 5, must_be_on_edge := true }

/-- The second MikroBus connector of the demo component list. -/
def mb2_demo : Component :=
  { name := "MIKROBUS_CONNECTOR_2", width := 5, height := 5, must_be_on_edge := true }

/-- An unconstrained 5 by 5 component. -/
def plain_demo : Component := { name := "BLOCK", width := 5, height := 5 }

/-- The crystal of the demo component list, with a proximity constraint on
the microcontroller. -/
def crystal_demo : Component :=
  { name := "CRYSTAL", width := 5, height := 5,
    proximity_target := some "MICROCONTROLLER", max_proximity_distance := 10 }

/-- A microcontroller already placed at position (5, 0). -/
def mcu_placed : Component :=
  { name := "MICROCONTROLLER", width := 5, height := 5, x := 5, y := 0 }

/-- A state whose two pool rectangles give the BSSF and BAF heuristics
equal best scores at different positions. -/
def tie_state : PCBPlacer :=
  { board_width := 50, board_height := 50, placed_components := [],
    free_rectangles := [Rectangle.mk 0 0 5 30, Rectangle.mk 20 0 25 5] }

/-- A state whose only free rectangle is interior, so that an anchor placed
there touches no board edge. -/
def interior_state : PCBPlacer :=
  { board_width := 50, board_height := 50, placed_components := [],
    free_rectangles := [Rectangle.mk 10 10 20 20] }

/-- A state whose only free rectangle is too small for a 5 by 5 component. -/
def tiny_state : PCBPlacer :=
  { board_width := 50, board_height := 50, placed_components := [],
    free_rectangles := [Rectangle.mk 0 5 3 3] }

/-- A state with the microcontroller placed and the rest of the board free. -/
def prox_state : PCBPlacer :=
  { board_width := 50, board_height := 50, placed_components := [mcu_placed],
    free_rectangles := [Rectangle.mk 0 5 50 45] }

/-- The state after placing the USB connector on a fresh 50 by 50 board. -/
def demo_state1 : PCBPlacer :=
  (place_component (PCBPlacer.start 50 50) usb_demo).2.2

/-- The state after the paired MikroBus placement on top of `demo_state1`. -/
def demo_state2 : PCBPlacer :=
  (force_mikrobus_placement demo_state1 mb1_demo mb2_demo).2.2.2

/-! ## Facts about the validator -/

theorem valid_bounds {p : PCBPlacer} {c : Component} {x y : Int}
    (h : is_position_valid p c x y = true) :
    0 ≤ x ∧ 0 ≤ y ∧ x + c.width ≤ p.board_width ∧ y + c.height ≤ p.board_height := by
  unfold is_position_valid at h
  split_ifs at h with h1 h2 h3
  push_neg at h1
  omega

theorem valid_no_overlap {p : PCBPlacer} {c : Component} {x y : Int}
    (h : is_position_valid p c x y = true) :
    ∀ pl ∈ p.placed_components,
      x ≥ pl.x + pl.width ∨ x + c.width ≤ pl.x ∨ y ≥ pl.y + pl.height ∨ y + c.height ≤ pl.y := by
  unfold is_position_valid at h
  split_ifs at h with h1 h2 h3
  intro pl hpl
  by_contra hc
  push_neg at hc
  exact h2 (List.any_eq_true.2 ⟨pl, hpl, by simp; omega⟩)

theorem valid_edge {p : PCBPlacer} {c : Component} {x y : Int}
    (h : is_position_valid p c x y = true) (he : c.must_be_on_edge = true) :
    x = 0 ∨ y = 0 ∨ x + c.width = p.board_width ∨ y + c.height = p.board_height := by
  unfold is_position_valid at h
  split_ifs at h with h1 h2 h3
  by_contra hc
  push_neg at hc
  apply h3
  simp [he]
  omega

theorem valid_proximity {p : PCBPlacer} {c : Component} {x y : Int} {nm : String}
    {tgt : Component}
    (h : is_position_valid p c x y = true) (ht : c.proximity_target = some nm)
    (hf : p.placed_components.find? (fun t => t.name == nm) = some tgt) :
    0 ≤ c.max_proximity_distance ∧
      ((((x + Int.fdiv c.width 2) - (tgt.x + Int.fdiv tgt.width 2)) ^ 2 +
        ((y + Int.fdiv c.height 2) - (tgt.y + Int.fdiv tgt.height 2)) ^ 2 : Int) : Rat) ≤
        c.max_proximity_distance ^ 2 := by
  unfold is_position_valid at h
  split_ifs at h with h1 h2 h3
  unfold proximity_ok at h
  split at h
  next heq => rw [ht] at heq; cases heq
  next nm2 heq =>
    rw [ht] at heq
    injection heq with hnm
    subst hnm
    split at h
    next heq2 => rw [hf] at heq2; cases heq2
    next target heq2 =>
      rw [hf] at heq2
      injection heq2 with htg
      subst htg
      simpa using h

/-! ## Facts about the heuristic scan and the cross-heuristic choice -/

theorem scan_step_none {p : PCBPlacer} {c : Component} {key : Int → Int → Int × Int}
    {acc : Option (Int × Int × Int × Int)} {r : Rectangle} :
    scan_step p c key acc r = none ↔ acc = none ∧ ¬ candRect p c r := by
  rcases acc with _ | ⟨⟨bx, b2, bp, bs⟩⟩
  · unfold scan_step candRect
    split_ifs <;> simp_all
  · unfold scan_step candRect
    split_ifs with hf hv
    · dsimp only
      split_ifs <;> simp_all
    · simp_all
    · simp_all

theorem scan_none {p : PCBPlacer} {c : Component} {key : Int → Int → Int × Int} :
    ∀ (l : List Rectangle) (acc : Option (Int × Int × Int × Int)),
      l.foldl (scan_step p c key) acc = none ↔ acc = none ∧ ∀ r ∈ l, ¬ candRect p c r := by
  intro l
  induction l with
  | nil => intro acc; simp
  | cons r t ih =>
    intro acc
    rw [List.foldl_cons, ih, scan_step_none]
    simp only [List.mem_cons]
    constructor
    · rintro ⟨⟨ha, hr⟩, ht⟩
      exact ⟨ha, fun s hs => hs.elim (fun e => e ▸ hr) (ht s)⟩
    · rintro ⟨ha, hall⟩
      exact ⟨⟨ha, hall r (Or.inl rfl)⟩, fun s hs => hall s (Or.inr hs)⟩

theorem scan_sound {p : PCBPlacer} {c : Component} {key : Int → Int → Int × Int} :
    ∀ (l : List Rectangle) (acc : Option (Int × Int × Int × Int))
      (res : Int × Int × Int × Int),
      l.foldl (scan_step p c key) acc = some res →
      acc = some res ∨ ∃ r ∈ l, candRect p c r ∧ res.1 = r.x ∧ res.2.1 = r.y ∧
        res.2.2 = key (r.width - c.width) (r.height - c.height) := by
  intro l
  induction l with
  | nil => intro acc res h; exact Or.inl h
  | cons r t ih =>
    intro acc res h
    rw [List.foldl_cons] at h
    rcases ih _ _ h with h1 | ⟨r2, hr2, hc, hx, hy, hk⟩
    · unfold scan_step at h1
      split_ifs at h1 with hf hv
      · rcases acc with _ | ⟨⟨bx, b2, bp, bs⟩⟩
        · cases h1
          exact Or.inr ⟨r, List.mem_cons_self r t, ⟨hf.1, hf.2, hv⟩, rfl, rfl, rfl⟩
        · dsimp only at h1
          split_ifs at h1 with hlex
          · cases h1
            exact Or.inr ⟨r, List.mem_cons_self r t, ⟨hf.1, hf.2, hv⟩, rfl, rfl, rfl⟩
          · exact Or.inl h1
      · exact Or.inl h1
      · exact Or.inl h1
    · exact Or.inr ⟨r2, List.mem_cons_of_mem _ hr2, hc, hx, hy, hk⟩

theorem find_best_none {p : PCBPlacer} {c : Component} {key : Int → Int → Int × Int} :
    find_best_position p c key = none ↔ ∀ r ∈ p.free_rectangles, ¬ candRect p c r := by
  unfold find_best_position
  rw [Option.map_eq_none', scan_none]
  simp

theorem find_best_some {p : PCBPlacer} {c : Component} {key : Int → Int → Int × Int}
    {x y s : Int} (h : find_best_position p c key = some (x, y, s)) :
    ∃ r ∈ p.free_rectangles, candRect p c r ∧ x = r.x ∧ y = r.y ∧
      s = (key (r.width - c.width) (r.height - c.height)).1 := by
  unfold find_best_position at h
  rcases Option.map_eq_some'.1 h with ⟨res, hres, heq⟩
  rcases scan_sound _ _ _ hres with h1 | ⟨r, hr, hc, hx, hy, hk⟩
  · cases h1
  · injection heq with e1 e23
    injection e23 with e2 e3
    subst e1
    subst e2
    subst e3
    exact ⟨r, hr, hc, hx, hy, by rw [hk]⟩


theorem choose_step_none {acc r : Option (Int × Int × Int)} :
    choose_step acc r = none ↔ acc = none ∧ r = none := by
  rcases r with _ | ⟨⟨x, y, s⟩⟩ <;> rcases acc with _ | ⟨⟨bx, b2, bs⟩⟩ <;>
    · simp [choose_step]
      try (split_ifs <;> simp)

theorem choose_step_some_elim {acc r : Option (Int × Int × Int)} {v : Int × Int × Int}
    (h : choose_step acc r = some v) : acc = some v ∨ r = some v := by
  rcases r with _ | ⟨⟨x, y, s⟩⟩
  · exact Or.inl h
  · rcases acc with _ | ⟨⟨bx, b2, bs⟩⟩
    · exact Or.inr h
    · simp only [choose_step] at h
      split_ifs at h
      · exact Or.inr h
      · exact Or.inl h

theorem choose_step_le {acc r : Option (Int × Int × Int)} {v : Int × Int × Int}
    (h : choose_step acc r = some v) :
    (∀ w, acc = some w → v.2.2 ≤ w.2.2) ∧ (∀ w, r = some w → v.2.2 ≤ w.2.2) := by
  rcases r with _ | ⟨⟨x, y, s⟩⟩
  · simp only [choose_step] at h
    refine ⟨?_, by simp⟩
    rintro w hw
    rw [h] at hw
    cases hw
    exact le_refl _
  · rcases acc with _ | ⟨⟨bx, b2, bs⟩⟩
    · simp only [choose_step] at h
      cases h
      refine ⟨by simp, ?_⟩
      rintro w hw
      cases hw
      exact le_refl _
    · simp only [choose_step] at h
      split_ifs at h with hlt
      · cases h
        constructor
        · rintro w hw
          cases hw
          show s ≤ bs
          omega
        · rintro w hw
          cases hw
          exact le_refl _
      · cases h
        constructor
        · rintro w hw
          cases hw
          exact le_refl _
        · rintro w hw
          cases hw
          show bs ≤ s
          omega

theorem choose3_unfold (r1 r2 r3 : Option (Int × Int × Int)) :
    [r1, r2, r3].foldl choose_step none =
      choose_step (choose_step (choose_step none r1) r2) r3 := rfl

theorem choose3_none {r1 r2 r3 : Option (Int × Int × Int)} :
    [r1, r2, r3].foldl choose_step none = none ↔ r1 = none ∧ r2 = none ∧ r3 = none := by
  rw [choose3_unfold, choose_step_none, choose_step_none, choose_step_none]
  tauto

theorem choose3_mem {r1 r2 r3 : Option (Int × Int × Int)} {v : Int × Int × Int}
    (h : [r1, r2, r3].foldl choose_step none = some v) :
    r1 = some v ∨ r2 = some v ∨ r3 = some v := by
  rw [choose3_unfold] at h
  rcases choose_step_some_elim h with h2 | h3
  · rcases choose_step_some_elim h2 with h1 | h1
    · rcases choose_step_some_elim h1 with h0 | h0
      · cases h0
      · exact Or.inl h0
    · exact Or.inr (Or.inl h1)
  · exact Or.inr (Or.inr h3)

theorem choose3_min {r1 r2 r3 : Option (Int × Int × Int)} {v : Int × Int × Int}
    (h : [r1, r2, r3].foldl choose_step none = some v) :
    (∀ w, r1 = some w → v.2.2 ≤ w.2.2) ∧ (∀ w, r2 = some w → v.2.2 ≤ w.2.2) ∧
      (∀ w, r3 = some w → v.2.2 ≤ w.2.2) := by
  rw [choose3_unfold] at h
  have hl3 := choose_step_le h
  refine ⟨?_, ?_, hl3.2⟩
  · rintro w rfl
    have ha1 : choose_step none (some w) = some w := rfl
    rcases ha2 : choose_step (choose_step none (some w)) r2 with _ | u
    · rw [choose_step_none, ha1] at ha2
      simp at ha2
    · have hu := (choose_step_le ha2).1 w ha1
      have hv := hl3.1 u (by rw [ha2])
      exact le_trans hv hu
  · rintro w rfl
    rcases ha2 : choose_step (choose_step none r1) (some w) with _ | u
    · rw [choose_step_none] at ha2
      simp at ha2
    · have hu := (choose_step_le ha2).2 w rfl
      have hv := hl3.1 u (by rw [ha2])
      exact le_trans hv hu

theorem choose_step_keep {u : Int × Int × Int} {r : Option (Int × Int × Int)}
    (hr : ∀ w, r = some w → u.2.2 ≤ w.2.2) : choose_step (some u) r = some u := by
  rcases r with _ | ⟨⟨x, y, s⟩⟩
  · rfl
  · have ht := hr (x, y, s) rfl
    rcases u with ⟨a, b, t⟩
    simp only [choose_step]
    rw [if_neg]
    simp at ht
    omega

theorem choose3_first {r2 r3 : Option (Int × Int × Int)} {u : Int × Int × Int}
    (h2 : ∀ w, r2 = some w → u.2.2 ≤ w.2.2)
    (h3 : ∀ w, r3 = some w → u.2.2 ≤ w.2.2) :
    [some u, r2, r3].foldl choose_step none = some u := by
  rw [choose3_unfold]
  have a1 : choose_step none (some u) = some u := rfl
  rw [a1, choose_step_keep h2, choose_step_keep h3]

theorem choose3_second {r3 : Option (Int × Int × Int)} {u : Int × Int × Int}
    (h3 : ∀ w, r3 = some w → u.2.2 ≤ w.2.2) :
    [none, some u, r3].foldl choose_step none = some u := by
  rw [choose3_unfold]
  have a2 : choose_step (choose_step none none) (some u) = some u := rfl
  rw [a2, choose_step_keep h3]

theorem place_cases (p : PCBPlacer) (c : Component) :
    ((heuristic_results p c).foldl choose_step none = none ∧
       place_component p c = (false, c, p)) ∨
    ∃ bx b2 s, (heuristic_results p c).foldl choose_step none = some (bx, b2, s) ∧
      place_component p c =
        (true, (commit_placement p c bx b2).1, (commit_placement p c bx b2).2) := by
  cases hfold : (heuristic_results p c).foldl choose_step none with
  | none =>
    refine Or.inl ⟨rfl, ?_⟩
    simp only [place_component]
    rw [show [find_best_position_bssf p c, find_best_position_blsf p c,
         find_best_position_baf p c] = heuristic_results p c from rfl, hfold]
  | some v =>
    rcases v with ⟨bx, b2, s⟩
    refine Or.inr ⟨bx, b2, s, rfl, ?_⟩
    simp only [place_component]
    rw [show [find_best_position_bssf p c, find_best_position_blsf p c,
         find_best_position_baf p c] = heuristic_results p c from rfl, hfold]

theorem place_fail_shape {p : PCBPlacer} {c : Component}
    (h : (place_component p c).1 = false) : place_component p c = (false, c, p) := by
  rcases place_cases p c with ⟨_, heq⟩ | ⟨bx, b2, s, _, heq⟩
  · exact heq
  · rw [heq] at h
    cases h

theorem place_success_shape {p : PCBPlacer} {c : Component}
    (h : (place_component p c).1 = true) :
    ∃ bx b2, is_position_valid p c bx b2 = true ∧
      place_component p c =
        (true, (commit_placement p c bx b2).1, (commit_placement p c bx b2).2) := by
  rcases place_cases p c with ⟨_, heq⟩ | ⟨bx, b2, s, hfold, heq⟩
  · rw [heq] at h
    cases h
  · refine ⟨bx, b2, ?_, heq⟩
    rcases choose3_mem hfold with h1 | h1 | h1
    · obtain ⟨rect, hrect, hc, hx, hy, hs⟩ := find_best_some h1
      subst hx
      subst hy
      exact hc.2.2
    · obtain ⟨rect, hrect, hc, hx, hy, hs⟩ := find_best_some h1
      subst hx
      subst hy
      exact hc.2.2
    · obtain ⟨rect, hrect, hc, hx, hy, hs⟩ := find_best_some h1
      subst hx
      subst hy
      exact hc.2.2

/-! ## Containment and pruning -/

theorem contained_in_iff {a b : Rectangle} :
    contained_in a b = true ↔
      b.x ≤ a.x ∧ b.y ≤ a.y ∧ a.x + a.width ≤ b.x + b.width ∧
        a.y + a.height ≤ b.y + b.height := by
  unfold contained_in
  simp [and_assoc]

theorem contained_in_refl (r : Rectangle) : contained_in r r = true := by
  rw [contained_in_iff]
  omega

theorem memPt_mono {a b : Rectangle} {q : Int × Int} (h : contained_in a b = true)
    (hq : a.memPt q) : b.memPt q := by
  rw [contained_in_iff] at h
  unfold Rectangle.memPt at hq ⊢
  omega

theorem mem_prune_iff {l : List Rectangle} {a : Rectangle} :
    a ∈ remove_redundant_rectangles l ↔
      ∃ i, (i, a) ∈ l.enum ∧ ∀ jr ∈ l.enum, jr.1 ≠ i → contained_in a jr.2 = false := by
  unfold remove_redundant_rectangles
  rw [List.mem_map]
  constructor
  · rintro ⟨⟨i, b⟩, hmem, rfl⟩
    rw [List.mem_filter] at hmem
    refine ⟨i, hmem.1, ?_⟩
    intro jr hjr hne
    have h2 := hmem.2
    rw [Bool.not_eq_true', List.any_eq_false] at h2
    have := h2 jr hjr
    simp only [Bool.and_eq_true, bne_iff_ne] at this
    rcases Bool.eq_false_or_eq_true (contained_in b jr.2) with hc | hc
    · exact absurd ⟨fun e => hne e.symm, hc⟩ this
    · exact hc
  · rintro ⟨i, hmem, hall⟩
    refine ⟨(i, a), ?_, rfl⟩
    rw [List.mem_filter]
    refine ⟨hmem, ?_⟩
    rw [Bool.not_eq_true', List.any_eq_false]
    intro jr hjr
    simp only [Bool.and_eq_true, bne_iff_ne]
    rintro ⟨hne, hc⟩
    rw [hall jr hjr (fun e => hne e.symm)] at hc
    cases hc

theorem mem_enum_exists {l : List Rectangle} {a : Rectangle} :
    a ∈ l ↔ ∃ i, (i, a) ∈ l.enum := by
  simp [List.mem_enum_iff_getElem?, List.mem_iff_getElem?]

theorem prune_subset {l : List Rectangle} {a : Rectangle}
    (h : a ∈ remove_redundant_rectangles l) : a ∈ l := by
  rcases mem_prune_iff.1 h with ⟨i, hmem, _⟩
  exact mem_enum_exists.2 ⟨i, hmem⟩

theorem prune_pairwise (l : List Rectangle) :
    (remove_redundant_rectangles l).Pairwise noContain := by
  unfold remove_redundant_rectangles
  rw [List.pairwise_map]
  have hnodup := List.nodup_enum_map_fst l
  rw [List.Nodup, List.pairwise_map] at hnodup
  refine List.Pairwise.imp_of_mem ?_
    (List.Pairwise.sublist (List.filter_sublist _) hnodup)
  intro a b ha hb hne
  rw [List.mem_filter] at ha hb
  constructor
  · have h2 := ha.2
    rw [Bool.not_eq_true', List.any_eq_false] at h2
    have h3 := h2 b hb.1
    simp only [Bool.and_eq_true, bne_iff_ne] at h3
    rcases Bool.eq_false_or_eq_true (contained_in a.2 b.2) with hc | hc
    · exact absurd ⟨hne, hc⟩ h3
    · exact hc
  · have h2 := hb.2
    rw [Bool.not_eq_true', List.any_eq_false] at h2
    have h3 := h2 a ha.1
    simp only [Bool.and_eq_true, bne_iff_ne] at h3
    rcases Bool.eq_false_or_eq_true (contained_in b.2 a.2) with hc | hc
    · exact absurd ⟨fun e => hne e.symm, hc⟩ h3
    · exact hc

theorem prune_of_pairwise {l : List Rectangle} (h : l.Pairwise noContain) :
    remove_redundant_rectangles l = l := by
  unfold remove_redundant_rectangles
  have hall : ∀ ir ∈ l.enum,
      (!(l.enum.any (fun jr => ir.1 != jr.1 && contained_in ir.2 jr.2))) = true := by
    intro ir hir
    rw [Bool.not_eq_true', List.any_eq_false]
    intro jr hjr
    simp only [Bool.and_eq_true, bne_iff_ne, not_and]
    intro hne hc
    rcases List.getElem?_eq_some_iff.1 (List.mem_enum_iff_getElem?.1 hir) with ⟨hi, hgi⟩
    rcases List.getElem?_eq_some_iff.1 (List.mem_enum_iff_getElem?.1 hjr) with ⟨hj, hgj⟩
    have hp := List.pairwise_iff_get.1 h
    rcases lt_or_gt_of_ne hne with hlt | hgt
    · have hnc := hp ⟨ir.1, hi⟩ ⟨jr.1, hj⟩ (Fin.mk_lt_mk.2 hlt)
      simp only [List.get_eq_getElem] at hnc
      rw [hgi, hgj] at hnc
      rw [hnc.1] at hc
      cases hc
    · have hnc := hp ⟨jr.1, hj⟩ ⟨ir.1, hi⟩ (Fin.mk_lt_mk.2 hgt)
      simp only [List.get_eq_getElem] at hnc
      rw [hgi, hgj] at hnc
      rw [hnc.2] at hc
      cases hc
  rw [List.filter_eq_self.2 hall, List.enum_map_snd]

theorem exists_max_area {l : List Rectangle} (hne : l ≠ []) :
    ∃ a ∈ l, ∀ b ∈ l, b.area ≤ a.area := by
  induction l with
  | nil => cases hne rfl
  | cons r t ih =>
    rcases eq_or_ne t [] with rfl | htne
    · refine ⟨r, List.mem_cons_self r [], ?_⟩
      intro b hb
      rw [List.mem_singleton] at hb
      subst hb
      exact le_refl _
    · obtain ⟨a, ha, hmax⟩ := ih htne
      rcases le_or_lt r.area a.area with hle | hlt
      · refine ⟨a, List.mem_cons_of_mem _ ha, ?_⟩
        intro b hb
        rcases List.mem_cons.1 hb with rfl | hb
        · exact hle
        · exact hmax b hb
      · refine ⟨r, List.mem_cons_self _ _, ?_⟩
        intro b hb
        rcases List.mem_cons.1 hb with rfl | hb
        · exact le_refl _
        · exact le_trans (hmax b hb) (le_of_lt hlt)

theorem area_lt_of_contained {a b : Rectangle} (h : contained_in a b = true)
    (hne : a ≠ b) (hga : goodRect a) : a.area < b.area := by
  rw [contained_in_iff] at h
  unfold Rectangle.area
  unfold goodRect at hga
  have hw : a.width ≤ b.width := by omega
  have hh : a.height ≤ b.height := by omega
  have hstrict : a.width < b.width ∨ a.height < b.height := by
    by_contra hcon
    push_neg at hcon
    apply hne
    have hw2 : a.width = b.width := le_antisymm hw hcon.1
    have hh2 : a.height = b.height := le_antisymm hh hcon.2
    have hx : a.x = b.x := by omega
    have hy : a.y = b.y := by omega
    cases a
    cases b
    simp_all
  rcases hstrict with hs | hs
  · nlinarith [hga.1, hga.2]
  · nlinarith [hga.1, hga.2]

theorem count_two_exists {l : List Rectangle} {r : Rectangle} (h : 2 ≤ l.count r) :
    ∃ i j : Nat, i ≠ j ∧ l[i]? = some r ∧ l[j]? = some r := by
  induction l with
  | nil => simp at h
  | cons a t ih =>
    by_cases ha : a = r
    · subst ha
      rw [List.count_cons_self] at h
      have h1 : 1 ≤ t.count a := by omega
      have hmem : a ∈ t := List.count_pos_iff.1 h1
      obtain ⟨j, hj⟩ := List.mem_iff_getElem?.1 hmem
      refine ⟨0, j + 1, by omega, by simp, ?_⟩
      rw [List.getElem?_cons_succ]
      exact hj
    · rw [List.count_cons, if_neg (by simpa using ha)] at h
      obtain ⟨i, j, hij, hi, hj⟩ := ih (by omega)
      refine ⟨i + 1, j + 1, by omega, ?_, ?_⟩
      · rw [List.getElem?_cons_succ]
        exact hi
      · rw [List.getElem?_cons_succ]
        exact hj

theorem prune_drop_dup {l : List Rectangle} {r : Rectangle} (h : 2 ≤ l.count r) :
    r ∉ remove_redundant_rectangles l := by
  intro hmem
  rcases mem_prune_iff.1 hmem with ⟨i, hi, hall⟩
  obtain ⟨i0, j0, hij, hi0, hj0⟩ := count_two_exists h
  rcases eq_or_ne i0 i with rfl | hne0
  · have := hall (j0, r) (List.mem_enum_iff_getElem?.2 hj0) (by simpa using hij.symm)
    rw [contained_in_refl] at this
    cases this
  · have := hall (i0, r) (List.mem_enum_iff_getElem?.2 hi0) (by simpa using hne0)
    rw [contained_in_refl] at this
    cases this

theorem prune_covers {l : List Rectangle} (hnd : l.Nodup)
    (hgood : ∀ r ∈ l, goodRect r) {r0 : Rectangle} {q : Int × Int}
    (hr0 : r0 ∈ l) (hq : r0.memPt q) :
    ∃ r ∈ remove_redundant_rectangles l, r.memPt q := by
  have hmem0 : r0 ∈ l.filter (fun r => decide (r.memPt q)) :=
    List.mem_filter.2 ⟨hr0, by simpa using hq⟩
  obtain ⟨a, ha, hmax⟩ := exists_max_area (List.ne_nil_of_mem hmem0)
  have haf := List.mem_filter.1 ha
  have haq : a.memPt q := by simpa using haf.2
  refine ⟨a, ?_, haq⟩
  rw [mem_prune_iff]
  obtain ⟨i, hi⟩ := mem_enum_exists.1 haf.1
  refine ⟨i, hi, ?_⟩
  intro jr hjr hne
  rcases Bool.eq_false_or_eq_true (contained_in a jr.2) with hc | hc
  · exfalso
    have hjl : jr.2 ∈ l := mem_enum_exists.2 ⟨jr.1, by simpa using hjr⟩
    have hne2 : jr.2 ≠ a := by
      intro he
      apply hne
      have hgi := List.mem_enum_iff_getElem?.1 hi
      have hgj := List.mem_enum_iff_getElem?.1 hjr
      rw [he] at hgj
      rcases List.getElem?_eq_some_iff.1 hgj with ⟨hjlen, _⟩
      exact List.getElem?_inj hjlen hnd (hgj.trans hgi.symm)
    have harea : a.area < jr.2.area :=
      area_lt_of_contained hc (fun e => hne2 e.symm) (hgood a haf.1)
    have hql : jr.2.memPt q := memPt_mono hc haq
    have hjf : jr.2 ∈ l.filter (fun r => decide (r.memPt q)) :=
      List.mem_filter.2 ⟨hjl, by simpa using hql⟩
    have := hmax jr.2 hjf
    unfold Rectangle.area at harea this
    omega
  · exact hc

/-! ## Splitting a free rectangle -/

theorem intersects_iff {x y w h : Int} {r : Rectangle} :
    intersects x y w h r = true ↔
      x < r.x + r.width ∧ x + w > r.x ∧ y < r.y + r.height ∧ y + h > r.y := by
  unfold intersects
  simp [and_assoc]

theorem mem_split_iff {rect : Rectangle} {c : Component} {x y : Int} {e : Rectangle} :
    e ∈ split_free_rectangle rect c x y ↔
      (x > rect.x ∧ e = Rectangle.mk rect.x rect.y (x - rect.x) rect.height) ∨
      (x + c.width < rect.x + rect.width ∧
        e = Rectangle.mk (x + c.width) rect.y (rect.x + rect.width - x - c.width)
              rect.height) ∨
      (y > rect.y ∧ e = Rectangle.mk rect.x rect.y rect.width (y - rect.y)) ∨
      (y + c.height < rect.y + rect.height ∧
        e = Rectangle.mk rect.x (y + c.height) rect.width
              (rect.y + rect.height - y - c.height)) := by
  by_cases g1 : x > rect.x <;> by_cases g2 : x + c.width < rect.x + rect.width <;>
    by_cases g3 : y > rect.y <;> by_cases g4 : y + c.height < rect.y + rect.height <;>
    simp [split_free_rectangle, g1, g2, g3, g4]

theorem split_good {rect : Rectangle} {c : Component} {x y : Int} {e : Rectangle}
    (hg : goodRect rect) (he : e ∈ split_free_rectangle rect c x y) : goodRect e := by
  unfold goodRect at hg ⊢
  rw [mem_split_iff] at he
  rcases he with ⟨g, rfl⟩ | ⟨g, rfl⟩ | ⟨g, rfl⟩ | ⟨g, rfl⟩ <;> dsimp only <;> omega

theorem split_contained {rect : Rectangle} {c : Component} {x y : Int} {e : Rectangle}
    (hint : intersects x y c.width c.height rect = true)
    (he : e ∈ split_free_rectangle rect c x y) : contained_in e rect = true := by
  rw [intersects_iff] at hint
  rw [mem_split_iff] at he
  rw [contained_in_iff]
  rcases he with ⟨g, rfl⟩ | ⟨g, rfl⟩ | ⟨g, rfl⟩ | ⟨g, rfl⟩ <;> dsimp only <;> omega

theorem split_avoid {rect : Rectangle} {c : Component} {x y : Int} {e : Rectangle}
    (he : e ∈ split_free_rectangle rect c x y) :
    ¬(x < e.x + e.width ∧ x + c.width > e.x ∧ y < e.y + e.height ∧ y + c.height > e.y) := by
  rw [mem_split_iff] at he
  rcases he with ⟨g, rfl⟩ | ⟨g, rfl⟩ | ⟨g, rfl⟩ | ⟨g, rfl⟩ <;> dsimp only <;> omega

theorem split_covers {rect : Rectangle} {c : Component} {x y : Int} {q : Int × Int}
    (hq : rect.memPt q) (hnc : ¬ (Rectangle.mk x y c.width c.height).memPt q) :
    ∃ e ∈ split_free_rectangle rect c x y, e.memPt q := by
  unfold Rectangle.memPt at hq hnc
  dsimp only at hnc
  rcases lt_or_ge q.1 x with h1 | h1
  · refine ⟨_, mem_split_iff.2 (Or.inl ⟨by omega, rfl⟩), ?_⟩
    unfold Rectangle.memPt
    dsimp only
    omega
  · rcases le_or_lt (x + c.width) q.1 with h2 | h2
    · refine ⟨_, mem_split_iff.2 (Or.inr (Or.inl ⟨by omega, rfl⟩)), ?_⟩
      unfold Rectangle.memPt
      dsimp only
      omega
    · rcases lt_or_ge q.2 y with h3 | h3
      · refine ⟨_, mem_split_iff.2 (Or.inr (Or.inr (Or.inl ⟨by omega, rfl⟩))), ?_⟩
        unfold Rectangle.memPt
        dsimp only
        omega
      · rcases le_or_lt (y + c.height) q.2 with h4 | h4
        · refine ⟨_, mem_split_iff.2 (Or.inr (Or.inr (Or.inr ⟨by omega, rfl⟩))), ?_⟩
          unfold Rectangle.memPt
          dsimp only
          omega
        · exact absurd ⟨h1, h2, h3, h4⟩ hnc

theorem split_nodup {rect : Rectangle} {c : Component} {x y : Int}
    (hint : intersects x y c.width c.height rect = true) :
    (split_free_rectangle rect c x y).Nodup := by
  rw [intersects_iff] at hint
  unfold split_free_rectangle
  split_ifs <;>
    simp_all [List.Nodup, List.pairwise_append, Rectangle.mk.injEq] <;>
    omega

theorem split_cross_ne {r1 r2 : Rectangle} {c : Component} {x y : Int} {e : Rectangle}
    (hnc : noContain r1 r2)
    (h1 : intersects x y c.width c.height r1 = true)
    (h2 : intersects x y c.width c.height r2 = true)
    (he1 : e ∈ split_free_rectangle r1 c x y)
    (he2 : e ∈ split_free_rectangle r2 c x y) : False := by
  rw [intersects_iff] at h1 h2
  have hn1 : ¬(r2.x ≤ r1.x ∧ r2.y ≤ r1.y ∧ r1.x + r1.width ≤ r2.x + r2.width ∧
      r1.y + r1.height ≤ r2.y + r2.height) := by
    rw [← contained_in_iff, hnc.1]
    simp
  have hn2 : ¬(r1.x ≤ r2.x ∧ r1.y ≤ r2.y ∧ r2.x + r2.width ≤ r1.x + r1.width ∧
      r2.y + r2.height ≤ r1.y + r1.height) := by
    rw [← contained_in_iff, hnc.2]
    simp
  rw [mem_split_iff] at he1 he2
  rcases he1 with ⟨g1, rfl⟩ | ⟨g1, rfl⟩ | ⟨g1, rfl⟩ | ⟨g1, rfl⟩ <;>
    rcases he2 with ⟨g2, he⟩ | ⟨g2, he⟩ | ⟨g2, he⟩ | ⟨g2, he⟩ <;>
    · simp only [Rectangle.mk.injEq] at he
      omega

/-! ## The commit step preserves the invariant -/

theorem rcDisjoint_mono {e r : Rectangle} {pl : Component}
    (hc : contained_in e r = true) (hd : rcDisjoint r pl) : rcDisjoint e pl := by
  rw [contained_in_iff] at hc
  unfold rcDisjoint at hd ⊢
  omega

theorem commit_comp (p : PCBPlacer) (c : Component) (x y : Int) :
    (commit_placement p c x y).1 = { c with x := x, y := y } := rfl

theorem commit_state (p : PCBPlacer) (c : Component) (x y : Int) :
    (commit_placement p c x y).2 =
      { p with
        placed_components := p.placed_components ++ [{ c with x := x, y := y }],
        free_rectangles := remove_redundant_rectangles (p.free_rectangles.flatMap
          (fun rect => if intersects x y c.width c.height rect then
             split_free_rectangle rect c x y else [rect])) } := rfl

theorem commit_inv {p : PCBPlacer} {c : Component} {x y : Int}
    (hinv : PlacerInv p) (hv : is_position_valid p c x y = true) :
    PlacerInv (commit_placement p c x y).2 := by
  obtain ⟨hin, hdisj, hgood, hav, hpair, hcov⟩ := hinv
  have hb := valid_bounds hv
  have hov := valid_no_overlap hv
  rw [commit_state]
  have hnf_good : ∀ e ∈ p.free_rectangles.flatMap
      (fun rect => if intersects x y c.width c.height rect then
         split_free_rectangle rect c x y else [rect]), goodRect e := by
    intro e he
    rw [List.mem_flatMap] at he
    obtain ⟨r, hr, he⟩ := he
    split_ifs at he with hint
    · exact split_good (hgood r hr) he
    · rw [List.mem_singleton] at he
      subst he
      exact hgood e hr
  have hnf_nodup : (p.free_rectangles.flatMap
      (fun rect => if intersects x y c.width c.height rect then
         split_free_rectangle rect c x y else [rect])).Nodup := by
    rw [List.nodup_flatMap]
    constructor
    · intro r hr
      split_ifs with hint
      · exact split_nodup hint
      · simp
    · refine List.Pairwise.imp_of_mem ?_ hpair
      intro a b ha hb2 hnc
      simp only [Function.onFun]
      split_ifs with hia hib hib
      · intro e he1 he2
        exact split_cross_ne hnc hia hib he1 he2
      · intro e he1 he2
        rw [List.mem_singleton] at he2
        subst he2
        have hce := split_contained hia he1
        rw [hnc.2] at hce
        exact absurd hce (by decide)
      · intro e he1 he2
        rw [List.mem_singleton] at he1
        subst he1
        have hce := split_contained hib he2
        rw [hnc.1] at hce
        exact absurd hce (by decide)
      · intro e he1 he2
        rw [List.mem_singleton] at he1
        rw [List.mem_singleton] at he2
        subst he1
        subst he2
        have hrefl := contained_in_refl e
        rw [hnc.1] at hrefl
        exact absurd hrefl (by decide)
  have hnf_avoid : ∀ e ∈ p.free_rectangles.flatMap
      (fun rect => if intersects x y c.width c.height rect then
         split_free_rectangle rect c x y else [rect]),
      (¬(x < e.x + e.width ∧ x + c.width > e.x ∧
         y < e.y + e.height ∧ y + c.height > e.y)) ∧
      ∀ pl ∈ p.placed_components, rcDisjoint e pl := by
    intro e he
    rw [List.mem_flatMap] at he
    obtain ⟨r, hr, he⟩ := he
    split_ifs at he with hint
    · refine ⟨split_avoid he, ?_⟩
      intro pl hpl
      exact rcDisjoint_mono (split_contained hint he) (hav r hr pl hpl)
    · rw [List.mem_singleton] at he
      subst he
      refine ⟨?_, fun pl hpl => hav e hr pl hpl⟩
      intro hcon
      apply hint
      rw [intersects_iff]
      omega
  have hnf_covers : ∀ (q : Int × Int), (∃ r ∈ p.free_rectangles, r.memPt q) →
      ¬ (Rectangle.mk x y c.width c.height).memPt q →
      ∃ e ∈ p.free_rectangles.flatMap
        (fun rect => if intersects x y c.width c.height rect then
           split_free_rectangle rect c x y else [rect]), e.memPt q := by
    rintro q ⟨r, hr, hq⟩ hqc
    by_cases hint : intersects x y c.width c.height r = true
    · obtain ⟨e, he, heq⟩ := split_covers hq hqc
      exact ⟨e, List.mem_flatMap.2 ⟨r, hr, by rw [if_pos hint]; exact he⟩, heq⟩
    · exact ⟨r, List.mem_flatMap.2 ⟨r, hr, by rw [if_neg hint]; simp⟩, hq⟩
  refine ⟨?_, ?_, ?_, ?_, ?_, ?_⟩
  · intro cc hcc
    rcases List.mem_append.1 hcc with hcc | hcc
    · exact hin cc hcc
    · rw [List.mem_singleton] at hcc
      subst hcc
      exact ⟨hb.1, hb.2.1, hb.2.2.1, hb.2.2.2⟩
  · rw [List.pairwise_append]
    refine ⟨hdisj, List.pairwise_singleton _ _, ?_⟩
    intro a ha b hb2
    rw [List.mem_singleton] at hb2
    subst hb2
    have := hov a ha
    unfold compDisjoint
    dsimp only
    omega
  · intro r hr
    exact hnf_good r (prune_subset hr)
  · intro r hr cc hcc
    rcases List.mem_append.1 hcc with hcc | hcc
    · exact (hnf_avoid r (prune_subset hr)).2 cc hcc
    · rw [List.mem_singleton] at hcc
      subst hcc
      have := (hnf_avoid r (prune_subset hr)).1
      unfold rcDisjoint
      dsimp only
      omega
  · exact prune_pairwise _
  · intro q hq1 hq2 hq3 hq4
    rcases hcov q hq1 hq2 hq3 hq4 with ⟨cc, hcc, hqc⟩ | ⟨r, hr, hqr⟩
    · exact Or.inl ⟨cc, List.mem_append.2 (Or.inl hcc), hqc⟩
    · by_cases hqc : (Rectangle.mk x y c.width c.height).memPt q
      · refine Or.inl ⟨{ c with x := x, y := y },
          List.mem_append.2 (Or.inr (List.mem_singleton.2 rfl)), ?_⟩
        exact hqc
      · obtain ⟨e, he, heq⟩ := hnf_covers q ⟨r, hr, hqr⟩ hqc
        obtain ⟨e2, he2, heq2⟩ := prune_covers hnf_nodup hnf_good he heq
        exact Or.inr ⟨e2, he2, heq2⟩

theorem place_inv {p : PCBPlacer} {c : Component} (hinv : PlacerInv p) :
    PlacerInv (place_component p c).2.2 := by
  rcases place_cases p c with ⟨_, heq⟩ | ⟨bx, b2, s, hfold, heq⟩
  · rw [heq]
    exact hinv
  · have hv : is_position_valid p c bx b2 = true := by
      rcases choose3_mem hfold with h1 | h1 | h1
      all_goals
        obtain ⟨rect, hrect, hc, hx, hy, hs⟩ := find_best_some h1
        subst hx
        subst hy
        exact hc.2.2
    rw [heq]
    exact commit_inv hinv hv

theorem find_first_valid_sound {p : PCBPlacer} {c : Component} {l : List (Int × Int)}
    {x y : Int} (h : find_first_valid p c l = some (x, y)) :
    is_position_valid p c x y = true ∧ (x, y) ∈ l := by
  induction l with
  | nil => cases h
  | cons hd t ih =>
    rcases hd with ⟨a, b⟩
    unfold find_first_valid at h
    split_ifs at h with hvv
    · cases h
      exact ⟨hvv, List.mem_cons_self _ _⟩
    · obtain ⟨h1, h2⟩ := ih h
      exact ⟨h1, List.mem_cons_of_mem _ h2⟩

theorem force_inv {p : PCBPlacer} {a b : Component} (hinv : PlacerInv p) :
    PlacerInv (force_mikrobus_placement p a b).2.2.2 := by
  have hp1 := @place_inv p a hinv
  unfold force_mikrobus_placement
  rcases hpl : place_component p a with ⟨ok, a2, p1⟩
  rw [hpl] at hp1
  cases ok
  · exact hinv
  · dsimp only
    rcases hff : find_first_valid p1 b (mikrobus_targets p1 a2) with _ | ⟨xx, yy⟩
    · exact hp1
    · obtain ⟨hvv, _⟩ := find_first_valid_sound hff
      exact commit_inv hp1 hvv

theorem reachable_inv {p : PCBPlacer} (h : Reachable p) : PlacerInv p := by
  induction h with
  | start w h hw hh =>
    unfold PlacerInv covers PCBPlacer.start
    dsimp only
    refine ⟨?_, ?_, ?_, ?_, ?_, ?_⟩
    · intro cc hcc
      cases hcc
    · exact List.Pairwise.nil
    · intro r hr
      rw [List.mem_singleton] at hr
      subst hr
      exact ⟨hw, hh⟩
    · intro r hr cc hcc
      cases hcc
    · exact List.pairwise_singleton _ _
    · intro q hq1 hq2 hq3 hq4
      refine Or.inr ⟨Rectangle.mk 0 0 w h, List.mem_singleton.2 rfl, ?_⟩
      unfold Rectangle.memPt
      dsimp only
      omega
  | place p c hp ih => exact place_inv ih
  | pair p a b hp ih => exact force_inv ih

/-! ## Claim theorems -/

/-- C1: after every successful call to `place_component` or
`force_mikrobus_placement` (that is, in every reachable state), every
placed component lies within the board bounds, and the placed components
are pairwise disjoint in their interiors (edge-touching allowed). -/
theorem C1_placed_set_invariant {p : PCBPlacer} (h : Reachable p) :
    (∀ c ∈ p.placed_components, inBounds p c) ∧
      p.placed_components.Pairwise compDisjoint := by
  obtain ⟨h1, h2, _, _, _, _⟩ := reachable_inv h
  exact ⟨h1, h2⟩

theorem C1_placed_set_invariant_witness :
    (∀ c ∈ demo_state1.placed_components, inBounds demo_state1 c) ∧
      demo_state1.placed_components.Pairwise compDisjoint :=
  C1_placed_set_invariant
    (Reachable.place (PCBPlacer.start 50 50) usb_demo
      (Reachable.start 50 50 (by decide) (by decide)))

/-- C2: after any sequence of successful placements, every rectangle of
the free pool is disjoint from every placed component, and the pool
rectangles together with the placed components cover the whole board. -/
theorem C2_free_pool_invariant {p : PCBPlacer} (h : Reachable p) :
    (∀ r ∈ p.free_rectangles, ∀ c ∈ p.placed_components, rcDisjoint r c) ∧
      covers p := by
  obtain ⟨_, _, _, h4, _, h6⟩ := reachable_inv h
  exact ⟨h4, h6⟩

theorem C2_free_pool_invariant_witness :
    (∀ r ∈ demo_state2.free_rectangles, ∀ c ∈ demo_state2.placed_components,
        rcDisjoint r c) ∧ covers demo_state2 :=
  C2_free_pool_invariant
    (Reachable.pair demo_state1 mb1_demo mb2_demo
      (Reachable.place (PCBPlacer.start 50 50) usb_demo
        (Reachable.start 50 50 (by decide) (by decide))))

/-- C8: pruning is idempotent: applying `remove_redundant_rectangles`
twice yields the same list as applying it once. -/
theorem C8_prune_idempotent (l : List Rectangle) :
    remove_redundant_rectangles (remove_redundant_rectangles l) =
      remove_redundant_rectangles l :=
  prune_of_pairwise (prune_pairwise l)

/-- C9: containment is tested non-strictly against every other index of
the input, so two rectangles that each contain the other are equal, and a
rectangle occurring at least twice is removed from the pool entirely
(every copy has another index containing it). -/
theorem C9_duplicates_removed (l : List Rectangle) (r r1 r2 : Rectangle) :
    (contained_in r1 r2 = true → contained_in r2 r1 = true → r1 = r2) ∧
      (2 ≤ l.count r → r ∉ remove_redundant_rectangles l) := by
  constructor
  · intro h1 h2
    rw [contained_in_iff] at h1 h2
    cases r1
    cases r2
    simp only [Rectangle.mk.injEq]
    dsimp only at h1 h2
    omega
  · exact prune_drop_dup

theorem C9_duplicates_removed_witness :
    2 ≤ (List.count (Rectangle.mk 0 0 5 5)
          [Rectangle.mk 0 0 5 5, Rectangle.mk 0 0 5 5]) ∧
      Rectangle.mk 0 0 5 5 ∉
        remove_redundant_rectangles [Rectangle.mk 0 0 5 5, Rectangle.mk 0 0 5 5] :=
  ⟨by decide,
   (C9_duplicates_removed [Rectangle.mk 0 0 5 5, Rectangle.mk 0 0 5 5]
      (Rectangle.mk 0 0 5 5) (Rectangle.mk 0 0 5 5) (Rectangle.mk 0 0 5 5)).2
     (by decide)⟩

/-- C6: when no heuristic finds a valid position, `place_component`
returns failure and leaves everything unchanged: the returned component
and state are exactly the inputs. -/
theorem C6_failure_no_mutation {p : PCBPlacer} {c : Component}
    (h : (place_component p c).1 = false) :
    place_component p c = (false, c, p) :=
  place_fail_shape h

theorem C6_failure_no_mutation_witness :
    (place_component tiny_state plain_demo).1 = false ∧
      place_component tiny_state plain_demo = (false, plain_demo, tiny_state) :=
  ⟨by decide, C6_failure_no_mutation (by decide)⟩

/-- C5: when the paired placement fails after the anchor was successfully
placed, the result state is exactly the post-anchor state: the anchor
placement and its pool mutations are not rolled back, and the anchor
stays in the placed list. -/
theorem C5_no_rollback {p : PCBPlacer} {mb1 mb2 : Component}
    (h1 : (place_component p mb1).1 = true)
    (h2 : (force_mikrobus_placement p mb1 mb2).1 = false) :
    force_mikrobus_placement p mb1 mb2 =
      (false, (place_component p mb1).2.1, mb2, (place_component p mb1).2.2) ∧
      (place_component p mb1).2.1 ∈ (place_component p mb1).2.2.placed_components := by
  obtain ⟨bx, b2, hv, heq⟩ := place_success_shape h1
  have hmem : (place_component p mb1).2.1 ∈
      (place_component p mb1).2.2.placed_components := by
    rw [heq, commit_comp, commit_state]
    dsimp only
    exact List.mem_append.2 (Or.inr (List.mem_singleton.2 rfl))
  refine ⟨?_, hmem⟩
  unfold force_mikrobus_placement at h2 ⊢
  rw [heq] at h2 ⊢
  dsimp only at h2 ⊢
  rcases hff : find_first_valid (commit_placement p mb1 bx b2).2 mb2
      (mikrobus_targets (commit_placement p mb1 bx b2).2
        (commit_placement p mb1 bx b2).1) with _ | ⟨xx, yy⟩
  · rfl
  · rw [hff] at h2
    dsimp only at h2
    cases h2

/-- C10: the cross-heuristic comparison of `place_component` uses a strict
less-than, so with equal best scores the earliest heuristic in the order
BSSF, BLSF, BAF keeps the commit: a later equal-scoring heuristic never
displaces an earlier one. -/
theorem C10_tie_earliest (p : PCBPlacer) (c : Component) :
    (∀ x1 y1 s1, find_best_position_bssf p c = some (x1, y1, s1) →
       (∀ w, find_best_position_blsf p c = some w → s1 ≤ w.2.2) →
       (∀ w, find_best_position_baf p c = some w → s1 ≤ w.2.2) →
       (place_component p c).2.1.x = x1 ∧ (place_component p c).2.1.y = y1) ∧
    (find_best_position_bssf p c = none →
       ∀ x2 y2 s2, find_best_position_blsf p c = some (x2, y2, s2) →
       (∀ w, find_best_position_baf p c = some w → s2 ≤ w.2.2) →
       (place_component p c).2.1.x = x2 ∧ (place_component p c).2.1.y = y2) := by
  constructor
  · intro x1 y1 s1 hb1 hle2 hle3
    have hfold : (heuristic_results p c).foldl choose_step none = some (x1, y1, s1) := by
      unfold heuristic_results
      rw [hb1]
      exact choose3_first hle2 hle3
    rcases place_cases p c with ⟨hfn, _⟩ | ⟨bx, b2, s, hfs, heq⟩
    · rw [hfn] at hfold
      cases hfold
    · rw [hfs] at hfold
      injection hfold with hfold
      injection hfold with e1 hfold
      injection hfold with e2 e3
      subst e1
      subst e2
      rw [heq, commit_comp]
      exact ⟨rfl, rfl⟩
  · intro hb1 x2 y2 s2 hb2 hle3
    have hfold : (heuristic_results p c).foldl choose_step none = some (x2, y2, s2) := by
      unfold heuristic_results
      rw [hb1, hb2]
      exact choose3_second hle3
    rcases place_cases p c with ⟨hfn, _⟩ | ⟨bx, b2, s, hfs, heq⟩
    · rw [hfn] at hfold
      cases hfold
    · rw [hfs] at hfold
      injection hfold with hfold
      injection hfold with e1 hfold
      injection hfold with e2 e3
      subst e1
      subst e2
      rw [heq, commit_comp]
      exact ⟨rfl, rfl⟩

theorem C10_tie_earliest_witness :
    find_best_position_bssf tie_state plain_demo = some (20, 0, 0) ∧
      find_best_position_baf tie_state plain_demo = some (0, 0, 0) ∧
      ((place_component tie_state plain_demo).2.1.x = 20 ∧
       (place_component tie_state plain_demo).2.1.y = 0) := by
  refine ⟨by decide, by decide, ?_⟩
  refine (C10_tie_earliest tie_state plain_demo).1 20 0 0 (by decide) ?_ ?_
  · intro w hw
    have hv : find_best_position_blsf tie_state plain_demo = some (20, 0, 20) := by decide
    rw [hv] at hw
    cases hw
    decide
  · intro w hw
    have hv : find_best_position_baf tie_state plain_demo = some (0, 0, 0) := by decide
    rw [hv] at hw
    cases hw
    decide

theorem C5_no_rollback_witness :
    (place_component interior_state plain_demo).1 = true ∧
      (force_mikrobus_placement interior_state plain_demo mb2_demo).1 = false ∧
      (force_mikrobus_placement interior_state plain_demo mb2_demo =
        (false, (place_component interior_state plain_demo).2.1, mb2_demo,
          (place_component interior_state plain_demo).2.2) ∧
        (place_component interior_state plain_demo).2.1 ∈
          (place_component interior_state plain_demo).2.2.placed_components) :=
  ⟨by decide, by decide, C5_no_rollback (by decide) (by decide)⟩

/-- C7: for a component whose proximity target names an already-placed
component (the first placed component with that name), any committed
position keeps the Euclidean distance between the two centers, computed
with floor-divided half-extents, within the component's
`max_proximity_distance`; when the named target is not among the placed
components the proximity check imposes no restriction at all. -/
theorem C7_proximity {p : PCBPlacer} {c : Component} {nm : String}
    (ht : c.proximity_target = some nm)
    (h1 : (place_component p c).1 = true) :
    (∀ tgt, p.placed_components.find? (fun t => t.name == nm) = some tgt →
       Real.sqrt (((((place_component p c).2.1.x + Int.fdiv c.width 2) -
             (tgt.x + Int.fdiv tgt.width 2) : Int) : Real) ^ 2 +
           ((((place_component p c).2.1.y + Int.fdiv c.height 2) -
             (tgt.y + Int.fdiv tgt.height 2) : Int) : Real) ^ 2) ≤
         (c.max_proximity_distance : Real)) ∧
    (p.placed_components.find? (fun t => t.name == nm) = none →
       ∀ x y, is_position_valid p c x y =
         is_position_valid p { c with proximity_target := none } x y) := by
  constructor
  · intro tgt hf
    obtain ⟨bx, b2, hv, heq⟩ := place_success_shape h1
    have hprox := valid_proximity hv ht hf
    have hx : (place_component p c).2.1.x = bx := by
      rw [heq, commit_comp]
    have hy : (place_component p c).2.1.y = b2 := by
      rw [heq, commit_comp]
    rw [hx, hy]
    rw [Real.sqrt_le_iff]
    constructor
    · exact_mod_cast hprox.1
    · have h3 : (((bx + Int.fdiv c.width 2 - (tgt.x + Int.fdiv tgt.width 2)) ^ 2 +
          (b2 + Int.fdiv c.height 2 - (tgt.y + Int.fdiv tgt.height 2)) ^ 2 : Int) : Real) ≤
          (c.max_proximity_distance : Real) ^ 2 := by
        exact_mod_cast hprox.2
      push_cast at h3
      push_cast
      linarith
  · intro hf x y
    have hpo : proximity_ok p c x y = true := by
      unfold proximity_ok
      split
      · rfl
      next nm2 heq2 =>
        rw [ht] at heq2
        injection heq2 with hnm
        subst hnm
        split
        · rfl
        next tgt2 heq3 =>
          rw [hf] at heq3
          cases heq3
    have hpo2 : proximity_ok p { c with proximity_target := none } x y = true := rfl
    unfold is_position_valid
    dsimp only
    rw [hpo, hpo2]

theorem C7_proximity_witness :
    crystal_demo.proximity_target = some "MICROCONTROLLER" ∧
      (place_component prox_state crystal_demo).1 = true ∧
      prox_state.placed_components.find? (fun t => t.name == "MICROCONTROLLER") =
        some mcu_placed ∧
      Real.sqrt (((((place_component prox_state crystal_demo).2.1.x +
            Int.fdiv crystal_demo.width 2) -
            (mcu_placed.x + Int.fdiv mcu_placed.width 2) : Int) : Real) ^ 2 +
          ((((place_component prox_state crystal_demo).2.1.y +
            Int.fdiv crystal_demo.height 2) -
            (mcu_placed.y + Int.fdiv mcu_placed.height 2) : Int) : Real) ^ 2) ≤
        (crystal_demo.max_proximity_distance : Real) :=
  ⟨rfl, by decide, by decide,
   (C7_proximity rfl (by decide)).1 mcu_placed (by decide)⟩

/-- C4: `place_component` succeeds exactly when some pool rectangle fits
the component and validates at its top-left corner; each heuristic returns
`none` exactly when no such rectangle exists, and any returned position is
the top-left corner of such a rectangle; on success the committed position
is one of the three heuristic results, and its raw score is the globally
smallest among all returned scores (linear and area scores compared
directly). -/
theorem C4_place_choice (p : PCBPlacer) (c : Component) :
    ((place_component p c).1 = true ↔ ∃ r ∈ p.free_rectangles, candRect p c r) ∧
    (find_best_position_bssf p c = none ↔
       ∀ r ∈ p.free_rectangles, ¬ candRect p c r) ∧
    (find_best_position_blsf p c = none ↔
       ∀ r ∈ p.free_rectangles, ¬ candRect p c r) ∧
    (find_best_position_baf p c = none ↔
       ∀ r ∈ p.free_rectangles, ¬ candRect p c r) ∧
    (∀ x y s, find_best_position_bssf p c = some (x, y, s) →
       ∃ r ∈ p.free_rectangles, candRect p c r ∧ x = r.x ∧ y = r.y) ∧
    (∀ x y s, find_best_position_blsf p c = some (x, y, s) →
       ∃ r ∈ p.free_rectangles, candRect p c r ∧ x = r.x ∧ y = r.y) ∧
    (∀ x y s, find_best_position_baf p c = some (x, y, s) →
       ∃ r ∈ p.free_rectangles, candRect p c r ∧ x = r.x ∧ y = r.y) ∧
    ((place_component p c).1 = true →
       ∃ s, (find_best_position_bssf p c =
               some ((place_component p c).2.1.x, (place_component p c).2.1.y, s) ∨
             find_best_position_blsf p c =
               some ((place_component p c).2.1.x, (place_component p c).2.1.y, s) ∨
             find_best_position_baf p c =
               some ((place_component p c).2.1.x, (place_component p c).2.1.y, s)) ∧
         (∀ w, find_best_position_bssf p c = some w → s ≤ w.2.2) ∧
         (∀ w, find_best_position_blsf p c = some w → s ≤ w.2.2) ∧
         (∀ w, find_best_position_baf p c = some w → s ≤ w.2.2)) := by
  have hsucc : (place_component p c).1 = true ↔
      (heuristic_results p c).foldl choose_step none ≠ none := by
    rcases place_cases p c with ⟨hf, heq⟩ | ⟨bx, b2, s, hf, heq⟩ <;> rw [heq] <;> simp [hf]
  refine ⟨?_, find_best_none, find_best_none, find_best_none, ?_, ?_, ?_, ?_⟩
  · rw [hsucc]
    constructor
    · intro hne
      rcases hfold : (heuristic_results p c).foldl choose_step none with _ | v
      · exact absurd hfold hne
      · rcases v with ⟨vx, vy, vs⟩
        rcases choose3_mem hfold with h1 | h1 | h1
        all_goals
          obtain ⟨r, hr, hc, _, _, _⟩ := find_best_some h1
          exact ⟨r, hr, hc⟩
    · rintro ⟨r, hr, hc⟩ hnone
      unfold heuristic_results at hnone
      rw [choose3_none] at hnone
      exact (find_best_none.1 hnone.1) r hr hc
  · intro x y s h
    obtain ⟨r, hr, hc, hx, hy, _⟩ := find_best_some h
    exact ⟨r, hr, hc, hx, hy⟩
  · intro x y s h
    obtain ⟨r, hr, hc, hx, hy, _⟩ := find_best_some h
    exact ⟨r, hr, hc, hx, hy⟩
  · intro x y s h
    obtain ⟨r, hr, hc, hx, hy, _⟩ := find_best_some h
    exact ⟨r, hr, hc, hx, hy⟩
  · intro hs
    rcases place_cases p c with ⟨hf, heq⟩ | ⟨bx, b2, s, hf, heq⟩
    · rw [heq] at hs
      cases hs
    · have hx : (place_component p c).2.1.x = bx := by
        rw [heq, commit_comp]
      have hy : (place_component p c).2.1.y = b2 := by
        rw [heq, commit_comp]
      refine ⟨s, ?_, (choose3_min hf).1, (choose3_min hf).2.1, (choose3_min hf).2.2⟩
      rw [hx, hy]
      exact choose3_mem hf

theorem C4_place_choice_witness :
    (place_component tie_state plain_demo).1 = true ∧
      (∃ r ∈ tie_state.free_rectangles, candRect tie_state plain_demo r) := by
  have hex : ∃ r ∈ tie_state.free_rectangles, candRect tie_state plain_demo r :=
    ⟨Rectangle.mk 0 0 5 30, by decide, by decide⟩
  exact ⟨(C4_place_choice tie_state plain_demo).1.mpr hex, hex⟩

theorem place_board (p : PCBPlacer) (c : Component) :
    (place_component p c).2.2.board_width = p.board_width ∧
      (place_component p c).2.2.board_height = p.board_height := by
  rcases place_cases p c with ⟨_, heq⟩ | ⟨bx, b2, s, _, heq⟩ <;> rw [heq] <;> exact ⟨rfl, rfl⟩

/-- C3 (amended): on the 50 by 50 board with a 5 by 5 partner, the
configuration the program actually runs, `force_mikrobus_placement`
behaves exactly as the specification describes: the partner candidates
lie on the edge opposite the anchor landing edge (priority order left,
right, top, bottom), with the free coordinate stepping by 5 from 0 up to
the board extent minus the partner extent, scanned in increasing order,
and the partner commits at the first candidate passing the validator.
For other board or partner sizes the code keeps its hardcoded constants
and the original claim fails. -/
theorem C3_pair_candidates_amended {p : PCBPlacer} {mb1 mb2 : Component}
    (hW : p.board_width = 50) (hH : p.board_height = 50)
    (hw : mb2.width = 5) (hh : mb2.height = 5) :
    force_mikrobus_placement p mb1 mb2 = spec_place_pair p mb1 mb2 := by
  have hb := place_board p mb1
  unfold force_mikrobus_placement spec_place_pair
  rcases hpl : place_component p mb1 with ⟨ok, mb1', p1⟩
  rw [hpl] at hb
  cases ok
  · rfl
  · dsimp only
    dsimp only at hb
    have htg : mikrobus_targets p1 mb1' = spec_pair_targets p1 mb1' mb2 := by
      unfold mikrobus_targets spec_pair_targets
      rw [hb.1, hb.2, hW, hH, hw, hh]
      split_ifs <;> rfl
    rw [htg]

theorem C3_pair_candidates_amended_witness :
    (PCBPlacer.start 50 50).board_width = 50 ∧
      (PCBPlacer.start 50 50).board_height = 50 ∧
      mb2_demo.width = 5 ∧ mb2_demo.height = 5 ∧
      force_mikrobus_placement (PCBPlacer.start 50 50) mb1_demo mb2_demo =
        spec_place_pair (PCBPlacer.start 50 50) mb1_demo mb2_demo :=
  ⟨rfl, rfl, rfl, rfl, C3_pair_candidates_amended rfl rfl rfl rfl⟩

/-- C3 (counterexample): on a 60 by 60 board the paired placement
succeeds with the anchor on the left edge (x = 0), yet the partner is
committed at the hardcoded position (45, 0), which does not lie on the
opposite (right) edge: 45 plus the partner width is 50, not the board
width 60. The candidate construction of the claim therefore fails for
boards other than 50 by 50. -/
theorem C3_counterexample :
    (force_mikrobus_placement (PCBPlacer.start 60 60) mb1_demo mb2_demo).1 = true ∧
      (force_mikrobus_placement (PCBPlacer.start 60 60) mb1_demo mb2_demo).2.1.x = 0 ∧
      (force_mikrobus_placement (PCBPlacer.start 60 60) mb1_demo mb2_demo).2.2.1.x = 45 ∧
      (force_mikrobus_placement (PCBPlacer.start 60 60) mb1_demo mb2_demo).2.2.1.y = 0 ∧
      ¬((force_mikrobus_placement (PCBPlacer.start 60 60) mb1_demo mb2_demo).2.2.1.x +
          mb2_demo.width = (PCBPlacer.start 60 60).board_width) := by
  decide
